import Mathlib

/-!
# Verification of the DIoD dependency-injection core

Shallow embedding of the DIoD repository's core: the `Container` resolution
engine (`src/container.ts`), the `UseClass` registration strategy builder
(`use-class.ts`), and the build-time graph validator described by the design
document (completeness and cycle checks).

Identifiers are opaque handles with identity-based equality, used as map
keys; we model them as natural numbers.  Class references (`Newable`) are
likewise opaque and modelled as natural numbers.  Errors carry the
identifiers they report instead of name strings (names are used only in
error messages in the source).
-/

namespace Diod

/-- Opaque service identifier (`Identifier<T>` in `types.ts`): identity
equality, used as a map key. -/
abbrev Ident := Nat

/-- Opaque reference to a constructible class (`Newable<T>`). -/
abbrev ClassId := Nat

/-- Runtime values produced by resolution.  Constructing a class `c` with
positional arguments `args` (`new data.class(...dependencies)`) yields
`obj c args`; `prim` stands for any other host value (e.g. one stored by a
ByInstance registration or returned by a factory). -/
inductive Value where
  | obj (c : ClassId) (args : List Value)
  | prim (n : Nat)

/-- The variant part of `ServiceData` (`internal-types.ts`): the
`RegistrationType` tag together with the per-variant payload
(`class` / `instance` / `factory`). -/
inductive ServiceImpl where
  | classOf (c : ClassId)
  | instOf (v : Value)
  | factoryOf (f : Unit → Value)

/-- `ServiceData<T>`: finalized registration data stored in the container's
map.  Every variant carries a `dependencies` array (the container reads
`data.dependencies` before inspecting the tag) and the `autowire` flag set
by the strategy builder. -/
structure ServiceData where
  impl : ServiceImpl
  dependencies : List Ident
  autowire : Bool := true

/-- The container's service map
(`ReadonlyMap<Identifier<unknown>, ServiceData<unknown>>`), modelled as an
association list; lookup returns the first binding, matching map semantics
when keys are unique. -/
abbrev Graph := List (Ident × ServiceData)

/-- `this.services.get(identifier)`. -/
def lookupS (g : Graph) (id : Ident) : Option ServiceData :=
  (g.find? (fun p => p.1 == id)).map (fun p => p.2)

/-- The set of registered identifiers (the map's keys). -/
def keys (g : Graph) : List Ident :=
  g.map (fun p => p.1)

/-- The runtime error thrown by `Container.findServiceDataOrThrow`:
`Service not registered for: ${identifier.name}`.  It carries the
identifier it names. -/
inductive ResolutionError where
  | serviceNotRegistered (id : Ident)
deriving DecidableEq

/-- Realize a strategy once its dependencies are resolved: construct the
class with the resolved values positionally, return the stored instance,
or invoke the factory (the tag dispatch at the end of `Container.get`). -/
def realize (data : ServiceData) (args : List Value) : Value :=
  match data.impl with
  | .classOf c => .obj c args
  | .instOf v => v
  | .factoryOf f => f ()

/-- Sequence the results of resolving a dependency list in declared order
(the `for … of` loop of `Container.getDependencies`): the first divergence
(`none`, i.e. fuel exhaustion) or thrown error encountered propagates and
later entries are not consulted. -/
def collect : List (Option (Except ResolutionError Value)) →
    Option (Except ResolutionError (List Value))
  | [] => some (.ok [])
  | none :: _ => none
  | some (.error e) :: _ => some (.error e)
  | some (.ok v) :: rest =>
    match collect rest with
    | none => none
    | some (.error e) => some (.error e)
    | some (.ok vs) => some (.ok (v :: vs))

/-- `Container.get`, fuel-indexed: look the identifier up (throwing
`serviceNotRegistered` when absent), resolve the whole dependency list by
recursive `get` calls in declared order, then realize the strategy.
`none` means the fuel ran out (the source recursion is unbounded; fuel is
the standard device to embed it totally). -/
def get (g : Graph) : Nat → Ident → Option (Except ResolutionError Value)
  | 0, _ => none
  | n + 1, id =>
    match lookupS g id with
    | none => some (.error (.serviceNotRegistered id))
    | some data =>
      match collect (data.dependencies.map (fun d => get g n d)) with
      | none => none
      | some (.error e) => some (.error e)
      | some (.ok args) => some (.ok (realize data args))

/-! ## Registration strategy builder (`use-class.ts`) -/

/-- Build-time error taxonomy (§7 of the design document).
`dependencyArityMismatch` is the error thrown by
`UseClass.setDependencyInformationIfNotExist` ("Dependencies must be
provided for non autowired services. Service with missing dependencies:
…"); the other two are the Graph Validator's failure kinds.  Each carries
the identifiers it reports. -/
inductive BuildError where
  | unregisteredDependency (dependant missing : Ident)
  | circularDependency (cycle : List Ident)
  | dependencyArityMismatch (id : Ident)
deriving DecidableEq

/-- The external Dependency-List Provider (the `../reflection` module,
an external collaborator per the design document): `getDependencies`
returns a class's dependency identifiers via introspection and
`getDependencyCount` its required constructor parameter count. -/
structure Provider where
  getDependencies : ClassId → List Ident
  getDependencyCount : ClassId → Nat

/-- `BuildOptions`: the global build options, with the `autowire` flag. -/
structure BuildOptions where
  autowire : Bool

/-- The mutable state of a `UseClass<T>` strategy builder: the class
reference, the per-registration `dependencies` array (initially empty)
and the per-registration `autowire` flag (initially `true`). -/
structure UseClassS where
  newable : ClassId
  dependencies : List Ident
  autowire : Bool

namespace UseClass

/-- The private `UseClass` constructor: fresh state for a class. -/
def create (c : ClassId) : UseClassS :=
  { newable := c, dependencies := [], autowire := true }

/-- `UseClass.withDependencies`: store the explicit list and clear the
per-registration auto-wire flag. -/
def withDependencies (s : UseClassS) (ds : List Ident) : UseClassS :=
  { s with dependencies := ds, autowire := false }

/-- `UseClass.setDependencyInformationIfNotExist`: with
`autowire := options.autowire && this.autowire`, throw the
missing-dependencies error when not autowired and the provider reports
more required parameters than the stored list supplies; otherwise, when
autowired, replace the stored list by the provider's introspected list. -/
def setDependencyInformationIfNotExist (p : Provider) (s : UseClassS)
    (options : BuildOptions) : Except BuildError UseClassS :=
  let autowire := options.autowire && s.autowire
  if !autowire && decide (s.dependencies.length < p.getDependencyCount s.newable) then
    .error (.dependencyArityMismatch s.newable)
  else if autowire then
    .ok { s with dependencies := p.getDependencies s.newable }
  else
    .ok s

/-- `UseClass.build`: finalize the dependency information, then emit the
`ServiceData` record `{ type: Class, class, dependencies, autowire }`. -/
def build (p : Provider) (s : UseClassS) (options : BuildOptions) :
    Except BuildError ServiceData :=
  match setDependencyInformationIfNotExist p s options with
  | .error e => .error e
  | .ok s' =>
    .ok { impl := .classOf s'.newable, dependencies := s'.dependencies,
          autowire := s'.autowire }

end UseClass

/-! ## The dependency graph induced by a service map -/

/-- The dependency list that the validator follows out of a strategy:
ByClass strategies contribute their declared dependencies; ByInstance and
ByFactory strategies are leaves with no outgoing edges (§4.1 of the design
document). -/
def classDeps (data : ServiceData) : List Ident :=
  match data.impl with
  | .classOf _ => data.dependencies
  | _ => []

/-- Outgoing edges of an identifier in the dependency graph. -/
def outEdges (g : Graph) (u : Ident) : List Ident :=
  match lookupS g u with
  | some data => classDeps data
  | none => []

/-- `Edge g u v`: the registration of `u` declares `v` as a dependency
(and `u` is a ByClass registration). -/
def Edge (g : Graph) (u v : Ident) : Prop :=
  v ∈ outEdges g u

/-- Consecutive dependency edges along a list of identifiers. -/
def ChainEdges (g : Graph) : List Ident → Prop
  | [] => True
  | [_] => True
  | a :: b :: rest => Edge g a b ∧ ChainEdges g (b :: rest)

/-- An ordered dependency cycle: it starts and ends at the repeated node
and follows dependency edges; `u :: l ++ [u]` has cycle length
`l.length + 1 ≥ 1`, so a self-dependency is the cycle `[u, u]`. -/
def IsCycle (g : Graph) (c : List Ident) : Prop :=
  ∃ u l, c = u :: (l ++ [u]) ∧ ChainEdges g (u :: (l ++ [u]))

/-- The dependency graph contains a cycle of length ≥ 1. -/
def HasCycle (g : Graph) : Prop :=
  ∃ c, IsCycle g c

/-! ## Graph Validator -/

/-- Modelled from the spec: the cycle diagnostic of the Graph Validator
(the validator lives in the ContainerBuilder, which is not among the
source files): "report the cycle as an ordered list of identifiers forming
the loop, starting and ending at the repeated node" — the suffix of the
in-progress path from the revisited node, closed by that node again. -/
def cycleFrom (u : Ident) (path : List Ident) : List Ident :=
  path.dropWhile (fun x => x != u) ++ [u]

mutual

/-- Modelled from the spec: one step of the Graph Validator's depth-first
traversal with three-color marking (the ContainerBuilder holding it is not
among the source files).  `done` is the list of finished (done-colored)
nodes, most recently finished first; `path` is the in-progress stack in
visiting order; `avail` is the set of unvisited registered identifiers.
Revisiting an in-progress node reports the cycle; otherwise the node's
outgoing edges are traversed and the node is marked done. -/
def dfsVisit (g : Graph) (avail : List Ident) (path done : List Ident)
    (u : Ident) : Except (List Ident) (List Ident) :=
  if u ∈ done then .ok done
  else if u ∈ path then .error (cycleFrom u path)
  else if hu : u ∈ avail then
    match dfsList g (avail.erase u) (path ++ [u]) done (outEdges g u) with
    | .error c => .error c
    | .ok done1 => .ok (u :: done1)
  else .ok (u :: done)
termination_by (avail.length, 0)
decreasing_by
  apply Prod.Lex.left
  have hpos := List.length_pos_of_mem hu
  rw [List.length_erase_of_mem hu]
  omega

/-- Modelled from the spec: the Graph Validator's traversal over a list of
nodes, threading the done set (and shrinking the unvisited set) from one
visit to the next. -/
def dfsList (g : Graph) (avail : List Ident) (path done : List Ident) :
    List Ident → Except (List Ident) (List Ident)
  | [] => .ok done
  | v :: vs =>
    match dfsVisit g avail path done v with
    | .error c => .error c
    | .ok done1 =>
      dfsList g (avail.filter (fun x => decide (x ∉ done1))) path done1 vs
termination_by l => (avail.length, l.length + 1)
decreasing_by
  · exact Prod.Lex.right _ (Nat.succ_pos _)
  · rcases Nat.lt_or_ge (avail.filter (fun x => decide (x ∉ done1))).length
      avail.length with h | h
    · exact Prod.Lex.left _ _ h
    · have hle := List.length_filter_le (fun x => decide (x ∉ done1)) avail
      have heq : (avail.filter (fun x => decide (x ∉ done1))).length =
          avail.length := le_antisymm hle h
      rw [heq]
      exact Prod.Lex.right _ (by rw [List.length_cons]; omega)

end

/-- Modelled from the spec: the Graph Validator's cycle check — a
depth-first traversal started from every registered identifier with all
nodes initially unvisited and empty in-progress/done sets. -/
def dfsAll (g : Graph) : Except (List Ident) (List Ident) :=
  dfsList g (keys g).dedup [] [] (keys g)

/-- Modelled from the spec: the Graph Validator's completeness check —
for every ByClass registration, every declared dependency identifier must
be a key of the registry; each missing binding is reported with the
dependant and the missing identifier. -/
def completenessErrors (g : Graph) : List BuildError :=
  g.flatMap (fun p =>
    (classDeps p.2).filterMap (fun d =>
      if (lookupS g d).isNone then some (.unregisteredDependency p.1 d)
      else none))

/-- Modelled from the spec: the cycle check's reported errors. -/
def cycleErrors (g : Graph) : List BuildError :=
  match dfsAll g with
  | .error c => [.circularDependency c]
  | .ok _ => []

/-- Modelled from the spec: the Graph Validator — both graph-wide checks
run to completion and report their findings. -/
def validate (g : Graph) : List BuildError :=
  completenessErrors g ++ cycleErrors g

/-- The immutable post-build container wrapping a validated ServiceGraph. -/
structure Container where
  services : Graph

/-- Modelled from the spec: `build` validates the finalized registration
graph and commits it into an immutable `Container`, or fails with the
validation errors and yields no container. -/
def buildGraph (g : Graph) : Except (List BuildError) Container :=
  if validate g = [] then .ok ⟨g⟩ else .error (validate g)

/-! ## Specification notions used to reason about the traversal -/

/-- A list of identifiers in finish order (most recently finished first)
is topologically sorted when every node's outgoing edges point into the
remainder of the list (nodes finished before it). -/
def TopoSorted (g : Graph) : List Ident → Prop
  | [] => True
  | u :: rest => (∀ v ∈ outEdges g u, v ∈ rest) ∧ TopoSorted g rest

/-- Position of the first occurrence of an identifier in a list. -/
def posIn : List Ident → Ident → Nat
  | [], _ => 0
  | w :: rest, u => if u = w then 0 else posIn rest u + 1

/-- Invariant of the traversal state: the done list is a topologically
sorted duplicate-free list disjoint from the in-progress path, the path
has no duplicates, and every registered identifier that is neither
in progress nor done is still available. -/
def VisitPre (g : Graph) (avail path done : List Ident) : Prop :=
  TopoSorted g done ∧ done.Nodup ∧ (∀ x ∈ path, x ∉ done) ∧ path.Nodup ∧
    (∀ x, x ∈ keys g → x ∉ path → x ∉ done → x ∈ avail)

/-- What a successful visit guarantees: the new done list keeps the
invariant, still avoids the path, extends the old done list, and contains
the visited node. -/
def VisitPost (g : Graph) (path done : List Ident) (u : Ident)
    (res : List Ident) : Prop :=
  TopoSorted g res ∧ res.Nodup ∧ (∀ x ∈ path, x ∉ res) ∧
    (∀ x ∈ done, x ∈ res) ∧ u ∈ res

/-- The in-progress path is an edge chain whose last node (when the path
is non-empty) has an edge to the node being visited. -/
def PathTo (g : Graph) (path : List Ident) (u : Ident) : Prop :=
  ChainEdges g path ∧ ∀ w, path.getLast? = some w → Edge g w u

/-- As `PathTo`, for every node of a work list. -/
def ListPathTo (g : Graph) (path : List Ident) (l : List Ident) : Prop :=
  ChainEdges g path ∧ ∀ w, path.getLast? = some w → ∀ v ∈ l, Edge g w v

/-- Soundness and invariant preservation of a single visit. -/
def VisitConcl (g : Graph) (avail path done : List Ident) (u : Ident) :
    Prop :=
  (∀ res, dfsVisit g avail path done u = .ok res →
    VisitPost g path done u res) ∧
  (∀ c, dfsVisit g avail path done u = .error c → IsCycle g c)

/-- Soundness and invariant preservation of a traversal of a work list. -/
def ListConcl (g : Graph) (avail path done l : List Ident) : Prop :=
  (∀ res, dfsList g avail path done l = .ok res →
    TopoSorted g res ∧ res.Nodup ∧ (∀ x ∈ path, x ∉ res) ∧
      (∀ x ∈ done, x ∈ res) ∧ (∀ v ∈ l, v ∈ res)) ∧
  (∀ c, dfsList g avail path done l = .error c → IsCycle g c)

/-! ## Theorems: the `UseClass` strategy builder -/

/-- C4: for a ByClass registration with explicit dependencies (auto-wire
disabled), building the strategy fails with `dependencyArityMismatch`
(naming the identifier) exactly when the supplied list is shorter than the
class's required parameter count as reported by the provider; a list of
matching or greater length succeeds (yielding the supplied list). -/
theorem useClass_explicit_arity (p : Provider) (c : ClassId)
    (ds : List Ident) (opts : BuildOptions) :
    (UseClass.build p (UseClass.withDependencies (UseClass.create c) ds) opts =
        .error (.dependencyArityMismatch c) ↔
      ds.length < p.getDependencyCount c) ∧
    (p.getDependencyCount c ≤ ds.length →
      UseClass.build p (UseClass.withDependencies (UseClass.create c) ds) opts =
        .ok { impl := .classOf c, dependencies := ds, autowire := false }) := by
  unfold UseClass.build UseClass.setDependencyInformationIfNotExist
    UseClass.withDependencies UseClass.create
  by_cases h : ds.length < p.getDependencyCount c <;>
    simp [h, Nat.not_lt]

/-- Witness for C4: a two-parameter class supplied with a one-element
explicit list fails with the arity error. -/
theorem useClass_explicit_arity_witness :
    UseClass.build ⟨fun _ => [], fun _ => 2⟩
        (UseClass.withDependencies (UseClass.create 5) [7]) ⟨true⟩ =
      .error (.dependencyArityMismatch 5) :=
  (useClass_explicit_arity ⟨fun _ => [], fun _ => 2⟩ 5 [7] ⟨true⟩).1.mpr
    (by decide)

/-- C6: building a ByClass registration queries the provider's dependency
introspection iff both the global `autowire` option and the
per-registration auto-wire flag hold (when they do, the introspected list
is stored; when they do not, the build outcome is independent of the
provider's `getDependencies`); and when explicit dependencies were
supplied, a successful build stores the supplied list verbatim. -/
theorem useClass_autowire_query (p : Provider) (s : UseClassS)
    (opts : BuildOptions) :
    ((opts.autowire && s.autowire) = true →
      UseClass.build p s opts =
        .ok { impl := .classOf s.newable,
              dependencies := p.getDependencies s.newable,
              autowire := s.autowire }) ∧
    ((opts.autowire && s.autowire) = false →
      ∀ q : Provider, q.getDependencyCount = p.getDependencyCount →
        UseClass.build q s opts = UseClass.build p s opts) ∧
    (∀ c ds, s = UseClass.withDependencies (UseClass.create c) ds →
      ∀ sd, UseClass.build p s opts = .ok sd → sd.dependencies = ds) := by
  refine ⟨fun haw => ?_, fun haw q hq => ?_, fun c ds hs sd hsd => ?_⟩
  · unfold UseClass.build UseClass.setDependencyInformationIfNotExist
    simp [haw]
  · unfold UseClass.build UseClass.setDependencyInformationIfNotExist
    simp [haw, hq]
  · subst hs
    unfold UseClass.build UseClass.setDependencyInformationIfNotExist
        UseClass.withDependencies UseClass.create at hsd
    by_cases h : ds.length < p.getDependencyCount c
    · simp [h] at hsd
    · simp [h] at hsd
      subst hsd
      rfl

/-- Witness for C6: with both auto-wire flags set, the introspected list
`[3, 4]` is stored in the built strategy. -/
theorem useClass_autowire_query_witness :
    UseClass.build ⟨fun _ => [3, 4], fun _ => 2⟩
        { newable := 9, dependencies := [], autowire := true } ⟨true⟩ =
      .ok { impl := .classOf 9, dependencies := [3, 4], autowire := true } :=
  (useClass_autowire_query ⟨fun _ => [3, 4], fun _ => 2⟩
    { newable := 9, dependencies := [], autowire := true } ⟨true⟩).1 rfl

/-- C10: for a ByClass registration on which `withDependencies` was never
called, building with the global autowire option `false` throws the
missing-dependencies (arity) error whenever the provider reports a
positive required parameter count. -/
theorem useClass_default_noautowire_throws (p : Provider) (c : ClassId)
    (h : 0 < p.getDependencyCount c) :
    UseClass.build p (UseClass.create c) ⟨false⟩ =
      .error (.dependencyArityMismatch c) := by
  unfold UseClass.build UseClass.setDependencyInformationIfNotExist
    UseClass.create
  simp [h]

/-- Witness for C10: a one-parameter class, never given explicit
dependencies, built with `autowire: false`. -/
theorem useClass_default_noautowire_throws_witness :
    0 < (1 : Nat) ∧
      UseClass.build ⟨fun _ => [2], fun _ => 1⟩ (UseClass.create 6) ⟨false⟩ =
        .error (.dependencyArityMismatch 6) :=
  ⟨by decide,
   useClass_default_noautowire_throws ⟨fun _ => [2], fun _ => 1⟩ 6 (by decide)⟩

/-! ## Theorems: the container's resolution engine -/

theorem collect_map_ok (vs : List Value) :
    collect (vs.map (fun v => some (Except.ok v))) = some (.ok vs) := by
  induction vs with
  | nil => rfl
  | cons v vs ih => simp [collect, ih]

theorem collect_ok_shape :
    ∀ {L : List (Option (Except ResolutionError Value))} {vs : List Value},
      collect L = some (.ok vs) → L = vs.map (fun v => some (Except.ok v)) := by
  intro L
  induction L with
  | nil => intro vs h; simp [collect] at h; simp [← h]
  | cons x rest ih =>
    intro vs h
    match x with
    | none => simp [collect] at h
    | some (.error e) => simp [collect] at h
    | some (.ok v) =>
      rw [collect] at h
      cases hc : collect rest with
      | none => rw [hc] at h; simp at h
      | some r =>
        cases r with
        | error e => rw [hc] at h; simp at h
        | ok vs' =>
          rw [hc] at h
          simp at h
          rw [← h, List.map_cons]
          rw [ih hc]

theorem collect_error_mem :
    ∀ {L : List (Option (Except ResolutionError Value))} {e : ResolutionError},
      collect L = some (.error e) → some (Except.error e) ∈ L := by
  intro L
  induction L with
  | nil => intro e h; simp [collect] at h
  | cons x rest ih =>
    intro e h
    match x with
    | none => simp [collect] at h
    | some (.error e') =>
      simp [collect] at h
      simp [h]
    | some (.ok v) =>
      rw [collect] at h
      cases hc : collect rest with
      | none => rw [hc] at h; simp at h
      | some r =>
        cases r with
        | error e' =>
          rw [hc] at h
          simp at h
          exact List.mem_cons_of_mem _ (h ▸ ih hc)
        | ok vs' => rw [hc] at h; simp at h

/-- Any `serviceNotRegistered` error surfaced by `get` names an identifier
that is genuinely absent from the service map. -/
theorem get_error_unregistered (g : Graph) :
    ∀ n id m, get g n id = some (.error (.serviceNotRegistered m)) →
      lookupS g m = none := by
  intro n
  induction n with
  | zero => intro id m h; simp [get] at h
  | succ n ih =>
    intro id m h
    rw [get] at h
    cases hl : lookupS g id with
    | none =>
      rw [hl] at h
      simp at h
      rw [← h]
      exact hl
    | some data =>
      rw [hl] at h
      simp only at h
      cases hc : collect (data.dependencies.map (fun d => get g n d)) with
      | none => rw [hc] at h; simp at h
      | some r =>
        cases r with
        | error e =>
          rw [hc] at h
          simp at h
          rw [h] at hc
          have hmem := collect_error_mem hc
          rcases List.mem_map.mp hmem with ⟨d, _, hd⟩
          exact ih d m hd
        | ok args => rw [hc] at h; simp at h

/-- C5: `Container.get id` fails with the service-not-registered error
naming `id` exactly when `id` is absent from the service map; when `id` is
present, no call to `get id` ever surfaces that error for `id`. -/
theorem container_get_unregistered_iff (g : Graph) (id : Ident) :
    (lookupS g id = none →
      ∀ n, get g (n + 1) id = some (.error (.serviceNotRegistered id))) ∧
    (∀ data, lookupS g id = some data →
      ∀ n r, get g n id = some r →
        r ≠ .error (.serviceNotRegistered id)) := by
  constructor
  · intro h n
    rw [get, h]
  · intro data hdat n r hget heq
    subst heq
    have := get_error_unregistered g n id id hget
    rw [this] at hdat
    exact Option.noConfusion hdat

/-- Witness for C5: identifier 1 is absent and `get` reports it; identifier
0 is present and `get` returns its instance rather than that error. -/
theorem container_get_unregistered_iff_witness :
    get ([(0, ⟨.instOf (.prim 7), [], true⟩)] : Graph) 1 1 =
        some (.error (.serviceNotRegistered 1)) ∧
      (Except.ok (Value.prim 7) : Except ResolutionError Value) ≠
        .error (.serviceNotRegistered 0) :=
  ⟨(container_get_unregistered_iff [(0, ⟨.instOf (.prim 7), [], true⟩)] 1).1
      rfl 0,
   (container_get_unregistered_iff [(0, ⟨.instOf (.prim 7), [], true⟩)] 0).2
      ⟨.instOf (.prim 7), [], true⟩ rfl 1 (.ok (.prim 7)) rfl⟩

/-- C7: resolving a ByClass strategy constructs the class with one
positional argument per declared dependency, each obtained by a recursive
`get` call on the dependency at the same position of the declared list —
so the arguments follow the declared order, and permuting the declared
list permutes the constructor arguments identically. -/
theorem container_get_class_order (g : Graph) (id : Ident)
    (data : ServiceData) (c : ClassId)
    (hdat : lookupS g id = some data) (himpl : data.impl = .classOf c) :
    ∀ n v, get g (n + 1) id = some (.ok v) →
      ∃ args, v = .obj c args ∧
        args.length = data.dependencies.length ∧
        ∀ i (hi : i < args.length) (hd : i < data.dependencies.length),
          get g n (data.dependencies.get ⟨i, hd⟩) =
            some (.ok (args.get ⟨i, hi⟩)) := by
  intro n v h
  rw [get, hdat] at h
  simp only at h
  cases hc : collect (data.dependencies.map (fun d => get g n d)) with
  | none => rw [hc] at h; simp at h
  | some r =>
    cases r with
    | error e => rw [hc] at h; simp at h
    | ok args =>
      rw [hc] at h
      simp at h
      refine ⟨args, ?_, ?_, ?_⟩
      · rw [← h]
        unfold realize
        rw [himpl]
      · have hshape := collect_ok_shape hc
        have := congrArg List.length hshape
        simpa using this.symm
      · intro i hi hd
        have hshape := collect_ok_shape hc
        have hq := congrArg (fun l => l[i]?) hshape
        simp only [List.getElem?_map] at hq
        rw [List.getElem?_eq_getElem hd, List.getElem?_eq_getElem hi] at hq
        simp only [Option.map_some'] at hq
        simpa [List.get_eq_getElem] using hq

/-- Witness for C7: a class with dependencies `[1, 2]` is constructed with
the resolutions of 1 and 2 in that order. -/
theorem container_get_class_order_witness :
    ∃ args, Value.obj 100 [.prim 1, .prim 2] = .obj 100 args ∧
      args.length = ([1, 2] : List Ident).length ∧
      ∀ i (hi : i < args.length) (hd : i < ([1, 2] : List Ident).length),
        get ([(0, ⟨.classOf 100, [1, 2], true⟩),
              (1, ⟨.instOf (.prim 1), [], true⟩),
              (2, ⟨.instOf (.prim 2), [], true⟩)] : Graph) 1
            (([1, 2] : List Ident).get ⟨i, hd⟩) =
          some (.ok (args.get ⟨i, hi⟩)) :=
  container_get_class_order
    [(0, ⟨.classOf 100, [1, 2], true⟩),
     (1, ⟨.instOf (.prim 1), [], true⟩),
     (2, ⟨.instOf (.prim 2), [], true⟩)] 0
    ⟨.classOf 100, [1, 2], true⟩ 100 rfl rfl 1
    (.obj 100 [.prim 1, .prim 2]) rfl

/-- C8: for an identifier bound to a ByInstance strategy (which holds no
dependencies), every call to `get`, at any sufficient fuel, returns the
very stored value. -/
theorem container_get_instance_identity (g : Graph) (id : Ident)
    (data : ServiceData) (v : Value)
    (hdat : lookupS g id = some data) (himpl : data.impl = .instOf v)
    (hdeps : data.dependencies = []) :
    ∀ n, get g (n + 1) id = some (.ok v) := by
  intro n
  rw [get, hdat]
  simp only
  rw [hdeps]
  simp [collect, realize, himpl]

/-- Witness for C8: two separate calls both return the stored value. -/
theorem container_get_instance_identity_witness :
    get ([(2, ⟨.instOf (.prim 5), [], true⟩)] : Graph) 1 2 =
        some (.ok (.prim 5)) ∧
      get ([(2, ⟨.instOf (.prim 5), [], true⟩)] : Graph) 4 2 =
        some (.ok (.prim 5)) :=
  ⟨container_get_instance_identity [(2, ⟨.instOf (.prim 5), [], true⟩)] 2
      ⟨.instOf (.prim 5), [], true⟩ (.prim 5) rfl rfl rfl 0,
   container_get_instance_identity [(2, ⟨.instOf (.prim 5), [], true⟩)] 2
      ⟨.instOf (.prim 5), [], true⟩ (.prim 5) rfl rfl rfl 3⟩

/-- C9: `get` resolves the whole dependency list before inspecting the
variant tag: for an Instance or Factory strategy, a successful `get`
requires every listed identifier to resolve (the results are discarded),
and if some listed identifier is absent from the map, `get` surfaces an
unregistered-service error instead of returning the stored instance or
invoking the factory. -/
theorem container_get_resolves_before_tag (g : Graph) (id : Ident)
    (data : ServiceData)
    (hdat : lookupS g id = some data)
    (himpl : (∃ v, data.impl = .instOf v) ∨
      (∃ f, data.impl = .factoryOf f)) :
    (∀ n w, get g (n + 1) id = some (.ok w) →
      ∀ e ∈ data.dependencies, ∃ val, get g n e = some (.ok val)) ∧
    (∀ d, d ∈ data.dependencies → lookupS g d = none →
      ∀ n r, get g n id = some r →
        ∃ m, r = .error (.serviceNotRegistered m) ∧ lookupS g m = none) := by
  have hres : ∀ n w, get g (n + 1) id = some (.ok w) →
      ∀ e ∈ data.dependencies, ∃ val, get g n e = some (.ok val) := by
    intro n w h e he
    rw [get, hdat] at h
    simp only at h
    cases hc : collect (data.dependencies.map (fun d => get g n d)) with
    | none => rw [hc] at h; simp at h
    | some r =>
      cases r with
      | error e' => rw [hc] at h; simp at h
      | ok args =>
        have hshape := collect_ok_shape hc
        have hmem : get g n e ∈ data.dependencies.map (fun d => get g n d) :=
          List.mem_map_of_mem _ he
        rw [hshape] at hmem
        rcases List.mem_map.mp hmem with ⟨val, _, hval⟩
        exact ⟨val, hval.symm⟩
  refine ⟨hres, ?_⟩
  intro d hd hnone n r hget
  cases n with
  | zero => simp [get] at hget
  | succ n =>
    cases r with
    | ok w =>
      rcases hres n w hget d hd with ⟨val, hval⟩
      cases n with
      | zero => simp [get] at hval
      | succ n => rw [get, hnone] at hval; simp at hval
    | error e =>
      cases e with
      | serviceNotRegistered m =>
        exact ⟨m, rfl, get_error_unregistered g (n + 1) id m hget⟩

/-- Witness for C9: an Instance strategy with dependency list `[4]` where
4 is unregistered; `get` surfaces the unregistered error rather than the
stored value. -/
theorem container_get_resolves_before_tag_witness :
    ∃ m, (Except.error (.serviceNotRegistered 4) :
        Except ResolutionError Value) = .error (.serviceNotRegistered m) ∧
      lookupS ([(3, ⟨.instOf (.prim 9), [4], true⟩)] : Graph) m = none :=
  (container_get_resolves_before_tag
      [(3, ⟨.instOf (.prim 9), [4], true⟩)] 3
      ⟨.instOf (.prim 9), [4], true⟩ rfl (.inl ⟨.prim 9, rfl⟩)).2
    4 (by simp) rfl 2 (.error (.serviceNotRegistered 4)) rfl

/-! ## Theorems: lookup, chains and topological order -/

theorem lookupS_nil (id : Ident) : lookupS [] id = none := rfl

theorem lookupS_cons (k : Ident) (v : ServiceData) (g : Graph)
    (id : Ident) :
    lookupS ((k, v) :: g) id = if k = id then some v else lookupS g id := by
  unfold lookupS
  by_cases h : k = id
  · rw [List.find?_cons_of_pos _ (by simpa using h)]
    simp [h]
  · rw [List.find?_cons_of_neg _ (by simpa using h)]
    simp [h]

theorem lookupS_entry {g : Graph} {id : Ident} {data : ServiceData}
    (h : lookupS g id = some data) : (id, data) ∈ g := by
  unfold lookupS at h
  cases hf : g.find? (fun p => p.1 == id) with
  | none => rw [hf] at h; exact Option.noConfusion h
  | some p =>
    rw [hf] at h
    have hmem := List.mem_of_find?_eq_some hf
    have hpred := List.find?_some hf
    simp at h hpred
    obtain ⟨p1, p2⟩ := p
    simp at hpred h
    rw [hpred, h] at hmem
    exact hmem

theorem lookupS_mem_keys {g : Graph} {id : Ident} {data : ServiceData}
    (h : lookupS g id = some data) : id ∈ keys g := by
  have := lookupS_entry h
  exact List.mem_map.mpr ⟨(id, data), this, rfl⟩

theorem mem_keys_lookupS {g : Graph} {id : Ident} (h : id ∈ keys g) :
    ∃ data, lookupS g id = some data := by
  unfold keys at h
  rcases List.mem_map.mp h with ⟨p, hp, hfst⟩
  have hsome : (g.find? (fun q => q.1 == id)).isSome := by
    rw [List.find?_isSome]
    exact ⟨p, hp, by simp [hfst]⟩
  rcases Option.isSome_iff_exists.mp hsome with ⟨q, hq⟩
  exact ⟨q.2, by unfold lookupS; rw [hq]; rfl⟩

theorem not_mem_keys_lookupS {g : Graph} {id : Ident}
    (h : id ∉ keys g) : lookupS g id = none := by
  cases hl : lookupS g id with
  | none => rfl
  | some data => exact absurd (lookupS_mem_keys hl) h

theorem edge_source_mem_keys {g : Graph} {u v : Ident}
    (h : Edge g u v) : u ∈ keys g := by
  unfold Edge outEdges at h
  cases hl : lookupS g u with
  | none => rw [hl] at h; simp at h
  | some data => exact lookupS_mem_keys hl

theorem chainEdges_of_cons {g : Graph} {a : Ident} {l : List Ident}
    (h : ChainEdges g (a :: l)) : ChainEdges g l := by
  cases l with
  | nil => trivial
  | cons b rest => exact h.2

theorem chainEdges_append_right {g : Graph} :
    ∀ (pre l : List Ident), ChainEdges g (pre ++ l) → ChainEdges g l := by
  intro pre
  induction pre with
  | nil => intro l h; exact h
  | cons a pre ih => intro l h; exact ih l (chainEdges_of_cons h)

theorem chainEdges_snoc {g : Graph} :
    ∀ (l : List Ident), ChainEdges g l →
      (∀ w, l.getLast? = some w → Edge g w u) → ChainEdges g (l ++ [u]) := by
  intro l
  induction l with
  | nil => intro _ _; trivial
  | cons a l ih =>
    intro h hl
    cases l with
    | nil => exact ⟨hl a rfl, trivial⟩
    | cons b l' =>
      refine ⟨h.1, ih h.2 ?_⟩
      intro w hw
      exact hl w (by rw [List.getLast?_cons_cons]; exact hw)

theorem dropWhile_first_occurrence {u : Ident} :
    ∀ (path : List Ident), u ∈ path →
      ∃ pre post, path = pre ++ u :: post ∧
        path.dropWhile (fun x => x != u) = u :: post := by
  intro path
  induction path with
  | nil => intro h; exact absurd h (List.not_mem_nil u)
  | cons a rest ih =>
    intro h
    by_cases ha : a = u
    · subst ha
      refine ⟨[], rest, rfl, ?_⟩
      rw [List.dropWhile_cons_of_neg (by simp)]
    · have hu : u ∈ rest := by
        rcases List.mem_cons.mp h with h' | h'
        · exact absurd h'.symm ha
        · exact h'
      rcases ih hu with ⟨pre, post, hsplit, hdrop⟩
      refine ⟨a :: pre, post, by rw [hsplit]; rfl, ?_⟩
      rw [List.dropWhile_cons_of_pos (by simpa using ha)]
      exact hdrop

theorem cycleFrom_isCycle {g : Graph} {u : Ident} {path : List Ident}
    (hmem : u ∈ path) (hch : ChainEdges g path)
    (hlast : ∀ w, path.getLast? = some w → Edge g w u) :
    IsCycle g (cycleFrom u path) := by
  rcases dropWhile_first_occurrence path hmem with ⟨pre, post, hsplit, hdrop⟩
  refine ⟨u, post, ?_, ?_⟩
  · unfold cycleFrom
    rw [hdrop]
    rfl
  · have hch' : ChainEdges g (u :: post) := by
      rw [hsplit] at hch
      exact chainEdges_append_right pre (u :: post) hch
    have hlast' : ∀ w, (u :: post).getLast? = some w → Edge g w u := by
      intro w hw
      apply hlast
      rw [hsplit, List.getLast?_append_cons]
      exact hw
    have := chainEdges_snoc (u :: post) hch' hlast'
    simpa using this

theorem posIn_lt_length {u : Ident} :
    ∀ {l : List Ident}, u ∈ l → posIn l u < l.length := by
  intro l
  induction l with
  | nil => intro h; exact absurd h (List.not_mem_nil u)
  | cons w rest ih =>
    intro h
    unfold posIn
    by_cases hw : u = w
    · simp [hw]
    · rcases List.mem_cons.mp h with h' | h'
      · exact absurd h' hw
      · simp [hw]
        exact ih h'

theorem topo_edge_pos {g : Graph} :
    ∀ {L : List Ident}, TopoSorted g L → L.Nodup →
      ∀ {u v : Ident}, u ∈ L → Edge g u v →
        v ∈ L ∧ posIn L u < posIn L v := by
  intro L
  induction L with
  | nil => intro _ _ u v hu; exact absurd hu (List.not_mem_nil u)
  | cons w rest ih =>
    intro ht hnd u v hu he
    obtain ⟨hedg, htopo⟩ := ht
    have hw : w ∉ rest := (List.nodup_cons.mp hnd).1
    have hndr : rest.Nodup := (List.nodup_cons.mp hnd).2
    by_cases huw : u = w
    · subst huw
      have hv : v ∈ rest := hedg v he
      have hvw : v ≠ u := fun hh => hw (hh ▸ hv)
      constructor
      · exact List.mem_cons_of_mem _ hv
      · unfold posIn
        simp [hvw]
    · have hur : u ∈ rest := by
        rcases List.mem_cons.mp hu with h' | h'
        · exact absurd h' huw
        · exact h'
      rcases ih htopo hndr hur he with ⟨hv, hlt⟩
      have hvw : v ≠ w := fun hh => hw (hh ▸ hv)
      constructor
      · exact List.mem_cons_of_mem _ hv
      · unfold posIn
        simp [huw, hvw]
        exact hlt

theorem topo_chain_pos {g : Graph} {L : List Ident}
    (ht : TopoSorted g L) (hnd : L.Nodup) :
    ∀ (l : List Ident) (a b : Ident),
      ChainEdges g (a :: (l ++ [b])) → a ∈ L →
        b ∈ L ∧ posIn L a < posIn L b := by
  intro l
  induction l with
  | nil =>
    intro a b hch ha
    exact topo_edge_pos ht hnd ha hch.1
  | cons x l' ih =>
    intro a b hch ha
    have h1 := topo_edge_pos ht hnd ha hch.1
    have h2 := ih x b hch.2 h1.1
    exact ⟨h2.1, Nat.lt_trans h1.2 h2.2⟩

theorem noCycle_of_topoSorted {g : Graph} {L : List Ident}
    (ht : TopoSorted g L) (hnd : L.Nodup)
    (hk : ∀ x ∈ keys g, x ∈ L) : ¬ HasCycle g := by
  rintro ⟨c, u, l, hc, hch⟩
  have hedge : ∃ v, Edge g u v := by
    cases l with
    | nil => exact ⟨u, hch.1⟩
    | cons x l' => exact ⟨x, hch.1⟩
  rcases hedge with ⟨v, hv⟩
  have hu : u ∈ L := hk u (edge_source_mem_keys hv)
  have := topo_chain_pos ht hnd l u u hch hu
  exact Nat.lt_irrefl _ this.2

/-! ## Theorems: invariants of the depth-first traversal -/

theorem dfs_step_visit (g : Graph) (n : Nat)
    (hQ : ∀ avail, avail.length < n → ∀ path done l,
      VisitPre g avail path done → ListPathTo g path l →
      ListConcl g avail path done l) :
    ∀ avail, avail.length ≤ n → ∀ path done u,
      VisitPre g avail path done → PathTo g path u →
      VisitConcl g avail path done u := by
  intro avail hlen path done u hpre hpath
  obtain ⟨htopo, hnd, hdisj, hpnd, hcov⟩ := hpre
  by_cases h1 : u ∈ done
  · have heq : dfsVisit g avail path done u = .ok done := by
      rw [dfsVisit, if_pos h1]
    constructor
    · intro res hres
      rw [heq] at hres
      injection hres with hres
      subst hres
      exact ⟨htopo, hnd, hdisj, fun x hx => hx, h1⟩
    · intro c hc
      rw [heq] at hc
      exact Except.noConfusion hc
  · by_cases h2 : u ∈ path
    · have heq : dfsVisit g avail path done u = .error (cycleFrom u path) := by
        rw [dfsVisit, if_neg h1, if_pos h2]
      constructor
      · intro res hres
        rw [heq] at hres
        exact Except.noConfusion hres
      · intro c hc
        rw [heq] at hc
        injection hc with hc
        subst hc
        exact cycleFrom_isCycle h2 hpath.1 hpath.2
    · by_cases h3 : u ∈ avail
      · have hlt : (avail.erase u).length < n := by
          have hle := List.length_erase_of_mem h3
          have hpos := List.length_pos_of_mem h3
          omega
        have hpre1 : VisitPre g (avail.erase u) (path ++ [u]) done := by
          refine ⟨htopo, hnd, ?_, ?_, ?_⟩
          · intro x hx
            rcases List.mem_append.mp hx with hx | hx
            · exact hdisj x hx
            · rw [List.mem_singleton.mp hx]; exact h1
          · simp [List.nodup_append, hpnd, h2]
          · intro x hk hxp hxd
            have hx1 : x ∉ path := fun hh => hxp (List.mem_append_left _ hh)
            have hx2 : x ≠ u := fun hh => hxp
              (List.mem_append_right _ (by simp [hh]))
            exact (List.mem_erase_of_ne hx2).mpr (hcov x hk hx1 hxd)
        have hlp1 : ListPathTo g (path ++ [u]) (outEdges g u) := by
          refine ⟨chainEdges_snoc path hpath.1 hpath.2, ?_⟩
          intro w hw v hv
          rw [List.getLast?_concat] at hw
          injection hw with hw
          subst hw
          exact hv
        have hcon := hQ (avail.erase u) hlt (path ++ [u]) done
          (outEdges g u) hpre1 hlp1
        cases hd : dfsList g (avail.erase u) (path ++ [u]) done
            (outEdges g u) with
        | error c0 =>
          have heq : dfsVisit g avail path done u = .error c0 := by
            rw [dfsVisit, if_neg h1, if_neg h2, dif_pos h3, hd]
          constructor
          · intro res hres
            rw [heq] at hres
            exact Except.noConfusion hres
          · intro c hc
            rw [heq] at hc
            injection hc with hc
            subst hc
            exact hcon.2 c0 hd
        | ok done1 =>
          obtain ⟨topo1, nd1, disj1, sub1, all1⟩ := hcon.1 done1 hd
          have hu1 : u ∉ done1 :=
            disj1 u (List.mem_append_right _ (by simp))
          have heq : dfsVisit g avail path done u = .ok (u :: done1) := by
            rw [dfsVisit, if_neg h1, if_neg h2, dif_pos h3, hd]
          constructor
          · intro res hres
            rw [heq] at hres
            injection hres with hres
            subst hres
            have htc : TopoSorted g (u :: done1) :=
              show (∀ v ∈ outEdges g u, v ∈ done1) ∧ TopoSorted g done1 from
                ⟨fun v hv => all1 v hv, topo1⟩
            refine ⟨htc, List.nodup_cons.mpr ⟨hu1, nd1⟩, ?_, ?_,
              List.mem_cons_self u done1⟩
            · intro x hx hmem
              rcases List.mem_cons.mp hmem with hh | hh
              · exact h2 (hh ▸ hx)
              · exact disj1 x (List.mem_append_left _ hx) hh
            · intro x hx
              exact List.mem_cons_of_mem _ (sub1 x hx)
          · intro c hc
            rw [heq] at hc
            exact Except.noConfusion hc
      · have hk : u ∉ keys g := fun hk => h3 (hcov u hk h2 h1)
        have hout : outEdges g u = [] := by
          unfold outEdges
          rw [not_mem_keys_lookupS hk]
        have heq : dfsVisit g avail path done u = .ok (u :: done) := by
          rw [dfsVisit, if_neg h1, if_neg h2, dif_neg h3]
        constructor
        · intro res hres
          rw [heq] at hres
          injection hres with hres
          subst hres
          have htc : TopoSorted g (u :: done) :=
            show (∀ v ∈ outEdges g u, v ∈ done) ∧ TopoSorted g done from
              ⟨by rw [hout]; intro v hv; exact absurd hv (List.not_mem_nil v),
               htopo⟩
          refine ⟨htc, List.nodup_cons.mpr ⟨h1, hnd⟩, ?_, ?_,
            List.mem_cons_self u done⟩
          · intro x hx hmem
            rcases List.mem_cons.mp hmem with hh | hh
            · exact h2 (hh ▸ hx)
            · exact hdisj x hx hh
          · intro x hx
            exact List.mem_cons_of_mem _ hx
        · intro c hc
          rw [heq] at hc
          exact Except.noConfusion hc

theorem dfs_step_list (g : Graph) (n : Nat)
    (hP : ∀ avail, avail.length ≤ n → ∀ path done u,
      VisitPre g avail path done → PathTo g path u →
      VisitConcl g avail path done u) :
    ∀ (l : List Ident) avail, avail.length ≤ n → ∀ path done,
      VisitPre g avail path done → ListPathTo g path l →
      ListConcl g avail path done l := by
  intro l
  induction l with
  | nil =>
    intro avail hlen path done hpre hlp
    obtain ⟨htopo, hnd, hdisj, hpnd, hcov⟩ := hpre
    constructor
    · intro res hres
      rw [dfsList] at hres
      injection hres with hres
      subst hres
      exact ⟨htopo, hnd, hdisj, fun x hx => hx,
        fun v hv => absurd hv (List.not_mem_nil v)⟩
    · intro c hc
      rw [dfsList] at hc
      exact Except.noConfusion hc
  | cons v vs ih =>
    intro avail hlen path done hpre hlp
    have hv : PathTo g path v :=
      ⟨hlp.1, fun w hw => hlp.2 w hw v (List.mem_cons_self v vs)⟩
    have hvc := hP avail hlen path done v hpre hv
    cases hd : dfsVisit g avail path done v with
    | error c0 =>
      have heq : dfsList g avail path done (v :: vs) = .error c0 := by
        rw [dfsList, hd]
      constructor
      · intro res hres
        rw [heq] at hres
        exact Except.noConfusion hres
      · intro c hc
        rw [heq] at hc
        injection hc with hc
        subst hc
        exact hvc.2 c0 hd
    | ok done1 =>
      obtain ⟨topo1, nd1, disj1, sub1, memv⟩ := hvc.1 done1 hd
      obtain ⟨htopo, hnd, hdisj, hpnd, hcov⟩ := hpre
      have hpre1 : VisitPre g (avail.filter (fun x => decide (x ∉ done1)))
          path done1 := by
        refine ⟨topo1, nd1, disj1, hpnd, ?_⟩
        intro x hk hxp hxd
        have hxdone : x ∉ done := fun hh => hxd (sub1 x hh)
        have hxa : x ∈ avail := hcov x hk hxp hxdone
        exact List.mem_filter.mpr ⟨hxa, by simpa using hxd⟩
      have hlp1 : ListPathTo g path vs :=
        ⟨hlp.1, fun w hw v' hv' => hlp.2 w hw v' (List.mem_cons_of_mem _ hv')⟩
      have hflen : (avail.filter (fun x => decide (x ∉ done1))).length ≤ n :=
        le_trans (List.length_filter_le _ _) hlen
      have hrec := ih (avail.filter (fun x => decide (x ∉ done1))) hflen
        path done1 hpre1 hlp1
      have heq : dfsList g avail path done (v :: vs) =
          dfsList g (avail.filter (fun x => decide (x ∉ done1)))
            path done1 vs := by
        rw [dfsList, hd]
      constructor
      · intro res hres
        rw [heq] at hres
        obtain ⟨topoR, ndR, disjR, subR, allR⟩ := hrec.1 res hres
        refine ⟨topoR, ndR, disjR, fun x hx => subR x (sub1 x hx), ?_⟩
        intro w hw
        rcases List.mem_cons.mp hw with hh | hh
        · exact hh ▸ subR v memv
        · exact allR w hh
      · intro c hc
        rw [heq] at hc
        exact hrec.2 c hc

theorem dfs_main (g : Graph) :
    ∀ n avail, avail.length ≤ n →
      (∀ path done u, VisitPre g avail path done → PathTo g path u →
        VisitConcl g avail path done u) ∧
      (∀ path done l, VisitPre g avail path done → ListPathTo g path l →
        ListConcl g avail path done l) := by
  intro n
  induction n with
  | zero =>
    intro avail hlen
    have hQ : ∀ avail1, avail1.length < 0 → ∀ path done l,
        VisitPre g avail1 path done → ListPathTo g path l →
        ListConcl g avail1 path done l :=
      fun avail1 h => absurd h (Nat.not_lt_zero _)
    have hP := dfs_step_visit g 0 hQ
    exact ⟨hP avail hlen,
      fun path done l => dfs_step_list g 0 hP l avail hlen path done⟩
  | succ n ihn =>
    intro avail hlen
    have hQ : ∀ avail1, avail1.length < n + 1 → ∀ path done l,
        VisitPre g avail1 path done → ListPathTo g path l →
        ListConcl g avail1 path done l := by
      intro avail1 h
      exact (ihn avail1 (Nat.lt_succ_iff.mp h)).2
    have hP := dfs_step_visit g (n + 1) hQ
    exact ⟨hP avail hlen,
      fun path done l => dfs_step_list g (n + 1) hP l avail hlen path done⟩

theorem dfsAll_ok {g : Graph} {D : List Ident} (h : dfsAll g = .ok D) :
    TopoSorted g D ∧ D.Nodup ∧ ∀ x ∈ keys g, x ∈ D := by
  unfold dfsAll at h
  have hmain := (dfs_main g (keys g).dedup.length (keys g).dedup le_rfl).2
  have hpre : VisitPre g (keys g).dedup [] [] :=
    ⟨trivial, List.nodup_nil, by simp, List.nodup_nil,
     fun x hx _ _ => List.mem_dedup.mpr hx⟩
  have hlp : ListPathTo g [] (keys g) :=
    ⟨trivial, fun w hw => Option.noConfusion hw⟩
  obtain ⟨t, nd, _, _, all⟩ := (hmain [] [] (keys g) hpre hlp).1 D h
  exact ⟨t, nd, all⟩

theorem dfsAll_error {g : Graph} {c : List Ident}
    (h : dfsAll g = .error c) : IsCycle g c := by
  unfold dfsAll at h
  have hmain := (dfs_main g (keys g).dedup.length (keys g).dedup le_rfl).2
  have hpre : VisitPre g (keys g).dedup [] [] :=
    ⟨trivial, List.nodup_nil, by simp, List.nodup_nil,
     fun x hx _ _ => List.mem_dedup.mpr hx⟩
  have hlp : ListPathTo g [] (keys g) :=
    ⟨trivial, fun w hw => Option.noConfusion hw⟩
  exact (hmain [] [] (keys g) hpre hlp).2 c h

/-! ## Theorems: build-time validation -/

/-- C1: for every registration graph whose dependency graph contains a
cycle of length ≥ 1 (a self-dependency included), `build` fails — it
returns the validation errors and no container — and among the reported
errors is a CircularDependency carrying an ordered list of identifiers
that forms a genuine dependency cycle, starting and ending at the repeated
node. -/
theorem build_fails_on_cycle (g : Graph) (hcyc : HasCycle g) :
    ∃ es, buildGraph g = .error es ∧
      ∃ c, BuildError.circularDependency c ∈ es ∧ IsCycle g c := by
  cases hd : dfsAll g with
  | ok D =>
    obtain ⟨t, nd, all⟩ := dfsAll_ok hd
    exact absurd hcyc (noCycle_of_topoSorted t nd all)
  | error c =>
    have hcycErr : cycleErrors g = [.circularDependency c] := by
      unfold cycleErrors
      rw [hd]
    have hmem : BuildError.circularDependency c ∈ validate g := by
      unfold validate
      rw [hcycErr]
      exact List.mem_append_right _ (List.mem_singleton_self _)
    have hne : validate g ≠ [] := List.ne_nil_of_mem hmem
    refine ⟨validate g, ?_, c, hmem, dfsAll_error hd⟩
    unfold buildGraph
    rw [if_neg hne]

/-- Witness for C1: the two-element cycle 0 → 1 → 0. -/
theorem build_fails_on_cycle_witness :
    HasCycle ([(0, ⟨.classOf 10, [1], true⟩),
               (1, ⟨.classOf 11, [0], true⟩)] : Graph) ∧
      ∃ es, buildGraph ([(0, ⟨.classOf 10, [1], true⟩),
                         (1, ⟨.classOf 11, [0], true⟩)] : Graph) =
          .error es ∧
        ∃ c, BuildError.circularDependency c ∈ es ∧
          IsCycle ([(0, ⟨.classOf 10, [1], true⟩),
                    (1, ⟨.classOf 11, [0], true⟩)] : Graph) c := by
  have hcyc : HasCycle ([(0, ⟨.classOf 10, [1], true⟩),
      (1, ⟨.classOf 11, [0], true⟩)] : Graph) := by
    refine ⟨[0, 1, 0], 0, [1], rfl, ?_, ?_, trivial⟩
    · show (1 : Ident) ∈ outEdges
        [(0, ⟨.classOf 10, [1], true⟩), (1, ⟨.classOf 11, [0], true⟩)] 0
      decide
    · show (0 : Ident) ∈ outEdges
        [(0, ⟨.classOf 10, [1], true⟩), (1, ⟨.classOf 11, [0], true⟩)] 1
      decide
  exact ⟨hcyc, build_fails_on_cycle _ hcyc⟩

/-- C3: for every registration graph in which some ByClass strategy lists
a dependency identifier that is not a key of the registry, `build` fails —
returning the validation errors and no container — and the errors include
an UnregisteredDependency naming the dependant and the missing
identifier. -/
theorem build_fails_on_missing (g : Graph) (id d : Ident)
    (data : ServiceData) (hdat : lookupS g id = some data)
    (hclass : ∃ c, data.impl = .classOf c)
    (hd : d ∈ data.dependencies) (hmiss : lookupS g d = none) :
    ∃ es, buildGraph g = .error es ∧
      BuildError.unregisteredDependency id d ∈ es := by
  have hentry : (id, data) ∈ g := lookupS_entry hdat
  have hcd : d ∈ classDeps data := by
    obtain ⟨c, hc⟩ := hclass
    unfold classDeps
    rw [hc]
    exact hd
  have hmem : BuildError.unregisteredDependency id d ∈
      completenessErrors g := by
    unfold completenessErrors
    rw [List.mem_flatMap]
    refine ⟨(id, data), hentry, ?_⟩
    rw [List.mem_filterMap]
    exact ⟨d, hcd, by rw [hmiss]; rfl⟩
  have hmemv : BuildError.unregisteredDependency id d ∈ validate g := by
    unfold validate
    exact List.mem_append_left _ hmem
  have hne : validate g ≠ [] := List.ne_nil_of_mem hmemv
  refine ⟨validate g, ?_, hmemv⟩
  unfold buildGraph
  rw [if_neg hne]

/-- Witness for C3: identifier 0 is a class depending on the unregistered
identifier 1. -/
theorem build_fails_on_missing_witness :
    ∃ es, buildGraph ([(0, ⟨.classOf 20, [1], true⟩)] : Graph) =
        .error es ∧
      BuildError.unregisteredDependency 0 1 ∈ es :=
  build_fails_on_missing [(0, ⟨.classOf 20, [1], true⟩)] 0 1
    ⟨.classOf 20, [1], true⟩ rfl ⟨20, rfl⟩ (by simp) rfl

/-! ## Theorems: termination of resolution on validated graphs -/

theorem collect_map_mono {g : Graph} {n m : Nat}
    (hmono : ∀ d r, get g n d = some r → get g m d = some r) :
    ∀ (l : List Ident) r,
      collect (l.map (fun d => get g n d)) = some r →
      collect (l.map (fun d => get g m d)) = some r := by
  intro l
  induction l with
  | nil => intro r h; exact h
  | cons d ds ih =>
    intro r h
    rw [List.map_cons] at h ⊢
    cases hx : get g n d with
    | none =>
      rw [hx] at h
      simp [collect] at h
    | some x =>
      cases x with
      | error e =>
        rw [hx] at h
        simp [collect] at h
        rw [hmono d (.error e) hx]
        simp [collect, ← h]
      | ok v =>
        rw [hx] at h
        rw [collect] at h
        cases hr : collect (ds.map (fun d => get g n d)) with
        | none => rw [hr] at h; simp at h
        | some r2 =>
          rw [hr] at h
          have hds := ih r2 hr
          rw [hmono d (.ok v) hx, collect, hds]
          cases r2 with
          | error e => simpa using h
          | ok vs => simpa using h

theorem get_mono (g : Graph) :
    ∀ n m, n ≤ m → ∀ id r, get g n id = some r → get g m id = some r := by
  intro n
  induction n with
  | zero => intro m _ id r h; simp [get] at h
  | succ n ih =>
    intro m hm id r h
    obtain ⟨m1, rfl⟩ : ∃ m1, m = m1 + 1 := ⟨m - 1, by omega⟩
    have hm1 : n ≤ m1 := by omega
    rw [get] at h ⊢
    cases hl : lookupS g id with
    | none =>
      rw [hl] at h
      exact h
    | some data =>
      rw [hl] at h
      simp only at h ⊢
      cases hc : collect (data.dependencies.map (fun d => get g n d)) with
      | none => rw [hc] at h; simp at h
      | some r2 =>
        rw [hc] at h
        have hm2 := collect_map_mono (ih m1 hm1) data.dependencies r2 hc
        rw [hm2]
        exact h

theorem collect_isSome_of_forall :
    ∀ {L : List (Option (Except ResolutionError Value))},
      (∀ x ∈ L, x.isSome) → (collect L).isSome := by
  intro L
  induction L with
  | nil => intro _; simp [collect]
  | cons x rest ih =>
    intro h
    have hx : x.isSome := h x (List.mem_cons_self _ _)
    cases x with
    | none => simp at hx
    | some ex =>
      cases ex with
      | error e => simp [collect]
      | ok v =>
        rw [collect]
        have hr := ih (fun y hy => h y (List.mem_cons_of_mem _ hy))
        cases hc : collect rest with
        | none => rw [hc] at hr; simp at hr
        | some r2 => cases r2 <;> simp

theorem uniform_fuel (g : Graph) :
    ∀ (l : List Ident), (∀ d ∈ l, ∃ n, (get g n d).isSome) →
      ∃ N, ∀ d ∈ l, (get g N d).isSome := by
  intro l
  induction l with
  | nil => exact fun _ => ⟨0, fun d hd => absurd hd (List.not_mem_nil d)⟩
  | cons d ds ih =>
    intro h
    obtain ⟨n1, h1⟩ := h d (List.mem_cons_self _ _)
    obtain ⟨N2, h2⟩ := ih (fun x hx => h x (List.mem_cons_of_mem _ hx))
    refine ⟨max n1 N2, ?_⟩
    intro x hx
    rcases List.mem_cons.mp hx with rfl | hx2
    · obtain ⟨r, hr⟩ := Option.isSome_iff_exists.mp h1
      rw [get_mono g n1 (max n1 N2) (le_max_left _ _) x r hr]
      rfl
    · obtain ⟨r, hr⟩ := Option.isSome_iff_exists.mp (h2 x hx2)
      rw [get_mono g N2 (max n1 N2) (le_max_right _ _) x r hr]
      rfl

/-- C2: on a ServiceGraph satisfying the validator's guarantees — every
dependency of every ByClass strategy is registered, non-class strategies
are leaves with no dependencies (the spec's data model), and the
dependency relation is acyclic — `Container.get` terminates on every
identifier: some finite fuel suffices, and the result is stable for all
larger fuels. -/
theorem container_get_terminates (g : Graph)
    (hleaf : ∀ id data, lookupS g id = some data →
      (∀ c, data.impl ≠ .classOf c) → data.dependencies = [])
    (hcomp : ∀ id data c, lookupS g id = some data →
      data.impl = .classOf c → ∀ d ∈ data.dependencies, d ∈ keys g)
    (hacyc : ¬ HasCycle g) :
    ∀ id, ∃ n, (get g n id).isSome ∧
      ∀ m, n ≤ m → get g m id = get g n id := by
  obtain ⟨D, hD⟩ : ∃ D, dfsAll g = .ok D := by
    cases hd : dfsAll g with
    | error c => exact absurd ⟨c, dfsAll_error hd⟩ hacyc
    | ok D => exact ⟨D, rfl⟩
  obtain ⟨ht, hnd, hall⟩ := dfsAll_ok hD
  have stab : ∀ (id : Ident) n, (get g n id).isSome →
      ∀ m, n ≤ m → get g m id = get g n id := by
    intro id n hs m hm
    obtain ⟨r, hr⟩ := Option.isSome_iff_exists.mp hs
    rw [hr, get_mono g n m hm id r hr]
  have main : ∀ k (id : Ident), id ∈ keys g →
      D.length - posIn D id ≤ k → ∃ n, (get g n id).isSome := by
    intro k
    induction k with
    | zero =>
      intro id hid hk
      have hmem : id ∈ D := hall id hid
      have := posIn_lt_length hmem
      omega
    | succ k ih =>
      intro id hid hk
      obtain ⟨data, hdata⟩ := mem_keys_lookupS hid
      cases himpl : data.impl with
      | classOf c =>
        have hdeps : ∀ d ∈ data.dependencies, ∃ n, (get g n d).isSome := by
          intro d hd
          have hdk : d ∈ keys g := hcomp id data c hdata himpl d hd
          have hedge : Edge g id d := by
            show d ∈ outEdges g id
            unfold outEdges
            rw [hdata]
            simp only
            unfold classDeps
            rw [himpl]
            exact hd
          have hmemD : id ∈ D := hall id hid
          obtain ⟨hdD, hlt⟩ := topo_edge_pos ht hnd hmemD hedge
          have hdlt := posIn_lt_length hdD
          exact ih d hdk (by omega)
        obtain ⟨N, hN⟩ := uniform_fuel g data.dependencies hdeps
        refine ⟨N + 1, ?_⟩
        rw [get, hdata]
        simp only
        have hsome : (collect (data.dependencies.map
            (fun d => get g N d))).isSome :=
          collect_isSome_of_forall (by
            intro x hx
            rcases List.mem_map.mp hx with ⟨d, hd, rfl⟩
            exact hN d hd)
        cases hc : collect (data.dependencies.map (fun d => get g N d)) with
        | none => rw [hc] at hsome; simp at hsome
        | some r2 => cases r2 <;> simp
      | instOf v =>
        have hdeps : data.dependencies = [] :=
          hleaf id data hdata (by simp [himpl])
        refine ⟨1, ?_⟩
        rw [get, hdata]
        simp only
        rw [hdeps]
        simp [collect]
      | factoryOf f =>
        have hdeps : data.dependencies = [] :=
          hleaf id data hdata (by simp [himpl])
        refine ⟨1, ?_⟩
        rw [get, hdata]
        simp only
        rw [hdeps]
        simp [collect]
  intro id
  by_cases hid : id ∈ keys g
  · obtain ⟨n, hn⟩ := main D.length id hid (by omega)
    exact ⟨n, hn, stab id n hn⟩
  · have hnone := not_mem_keys_lookupS hid
    refine ⟨1, ?_, ?_⟩
    · rw [get, hnone]
      rfl
    · intro m hm
      obtain ⟨m1, rfl⟩ : ∃ m1, m = m1 + 1 := ⟨m - 1, by omega⟩
      rw [get, hnone, get, hnone]

/-- Witness for C2: a two-node acyclic graph — a class depending on an
instance — on which resolution of identifier 0 terminates. -/
theorem container_get_terminates_witness :
    ∃ n, (get ([(0, ⟨.classOf 10, [1], true⟩),
                (1, ⟨.instOf (.prim 3), [], true⟩)] : Graph) n 0).isSome ∧
      ∀ m, n ≤ m →
        get ([(0, ⟨.classOf 10, [1], true⟩),
              (1, ⟨.instOf (.prim 3), [], true⟩)] : Graph) m 0 =
          get ([(0, ⟨.classOf 10, [1], true⟩),
                (1, ⟨.instOf (.prim 3), [], true⟩)] : Graph) n 0 := by
  have hleaf : ∀ (id : Ident) data,
      lookupS ([(0, ⟨.classOf 10, [1], true⟩),
                (1, ⟨.instOf (.prim 3), [], true⟩)] : Graph) id =
        some data →
      (∀ c, data.impl ≠ .classOf c) → data.dependencies = [] := by
    intro id data h hnc
    rw [lookupS_cons] at h
    split_ifs at h with h0
    · injection h with h
      subst h
      exact absurd rfl (hnc 10)
    · rw [lookupS_cons] at h
      split_ifs at h with h1
      · injection h with h
        subst h
        rfl
      · exact Option.noConfusion h
  have hcomp : ∀ (id : Ident) data c,
      lookupS ([(0, ⟨.classOf 10, [1], true⟩),
                (1, ⟨.instOf (.prim 3), [], true⟩)] : Graph) id =
        some data →
      data.impl = .classOf c → ∀ d ∈ data.dependencies,
        d ∈ keys ([(0, ⟨.classOf 10, [1], true⟩),
                   (1, ⟨.instOf (.prim 3), [], true⟩)] : Graph) := by
    intro id data c h himpl d hd
    rw [lookupS_cons] at h
    split_ifs at h with h0
    · injection h with h
      subst h
      simp at hd
      subst hd
      decide
    · rw [lookupS_cons] at h
      split_ifs at h with h1
      · injection h with h
        subst h
        exact ServiceImpl.noConfusion himpl
      · exact Option.noConfusion h
  have hacyc : ¬ HasCycle ([(0, ⟨.classOf 10, [1], true⟩),
      (1, ⟨.instOf (.prim 3), [], true⟩)] : Graph) := by
    apply noCycle_of_topoSorted
      (L := [0, 1]) (g := [(0, ⟨.classOf 10, [1], true⟩),
        (1, ⟨.instOf (.prim 3), [], true⟩)])
    · exact ⟨by decide, by decide, trivial⟩
    · decide
    · decide
  exact container_get_terminates _ hleaf hcomp hacyc 0

end Diod
